import Mathlib

/-!
Shallow embedding of the chatbot backend's text-processing core
(`src/server.js`; `src/2nd/server.js` and `src/unnamed/part_000` contain
the same three routines): the step-reference formatter
`formatStepsInAnswer`, the step retriever `getRelevantSteps`, and the
transcript excerpt retriever `getRelevantTranscript`, together with
theorems settling the specification claims about them.

Strings are modelled as Lean `String`s and lists of characters
(`String.data`); JavaScript regular-expression character classes are
modelled over their ASCII extent (`\w` = `[A-Za-z0-9_]`, `\s` = ASCII
whitespace, `\d` = `[0-9]`), and `String.prototype.toLowerCase` as the
character-wise ASCII lowering `Char.toLower`.  JavaScript's stable
`Array.prototype.sort` is modelled as a stable insertion sort.
-/

namespace Chatbot

/-- JS `\w` character class: `[A-Za-z0-9_]`. -/
def isWordChar (c : Char) : Bool := c.isAlphanum || c == '_'

/-- JS `\s` character class, restricted to its ASCII extent. -/
def isSpaceChar (c : Char) : Bool :=
  c == ' ' || c == '\t' || c == '\n' || c == '\r' || c == '\x0b' || c == '\x0c'

/-- Character-wise lowering of a character list (JS `toLowerCase`, ASCII fragment). -/
def lowerL (cs : List Char) : List Char := cs.map Char.toLower

/-- `leadsWith pat cs` holds when `cs` starts with `pat`. -/
def leadsWith : List Char → List Char → Bool
  | [], _ => true
  | _ :: _, [] => false
  | p :: ps, c :: cs => p == c && leadsWith ps cs

/-- `hasSub cs pat`: `pat` occurs contiguously inside `cs` (JS `String.prototype.includes`). -/
def hasSub : List Char → List Char → Bool
  | [], pat => pat.isEmpty
  | c :: tail, pat => leadsWith pat (c :: tail) || hasSub tail pat

/-- Index of the first occurrence of `pat` in `cs` (JS `String.prototype.indexOf`). -/
def firstIdx : List Char → List Char → Option Nat
  | [], pat => if pat.isEmpty then some 0 else none
  | c :: tail, pat =>
    if leadsWith pat (c :: tail) then some 0 else (firstIdx tail pat).map (· + 1)

/-- Accumulator-based splitting into maximal runs of `\w` characters: `acc`
holds the reversed run currently being read. -/
def wordTokensAux : List Char → List Char → List (List Char)
  | [], acc => if acc.isEmpty then [] else [acc.reverse]
  | c :: cs, acc =>
    if isWordChar c then wordTokensAux cs (c :: acc)
    else (if acc.isEmpty then [] else [acc.reverse]) ++ wordTokensAux cs []

/-- Maximal runs of `\w` characters: the non-empty tokens of JS `q.split(/\W+/)`.
(`split` can additionally produce empty tokens at the two edges of the string;
every caller in the source discards tokens of length `< 3` or `≤ 3`, so the
empty edge tokens are omitted here.) -/
def wordTokens (cs : List Char) : List (List Char) := wordTokensAux cs []

/-- JS `parseInt` on a non-empty string of decimal digits. -/
def digitsToNat (ds : List Char) : Nat := ds.foldl (fun a c => a * 10 + (c.toNat - 48)) 0

/-- The decimal digit character for `n < 10`. -/
def digitChar10 (n : Nat) : Char := Char.ofNat (48 + n)

/-- Fuel-indexed digit expansion; `fuel = n + 1` always suffices since `n / 10`
shrinks strictly below any positive `n`. -/
def natCharsAux (fuel : Nat) (n : Nat) : List Char :=
  match fuel with
  | 0 => []
  | fuel + 1 =>
    if n < 10 then [digitChar10 n]
    else natCharsAux fuel (n / 10) ++ [digitChar10 (n % 10)]

/-- Decimal digits of `n` (JS template-literal rendering of a non-negative integer). -/
def natChars (n : Nat) : List Char := natCharsAux (n + 1) n

/-- One attempt of `/Step\s+(\d+)/i` anchored at the start of `cs`: the literal
`step` in any letter case, then one or more `\s`, then one or more digits
(greedy), returning the parsed number. -/
def tryStepNumAt (cs : List Char) : Option Nat :=
  match cs with
  | c1 :: c2 :: c3 :: c4 :: rest =>
    if c1.toLower == 's' && c2.toLower == 't' && c3.toLower == 'e' && c4.toLower == 'p' then
      let sp := rest.takeWhile isSpaceChar
      let afterSp := rest.dropWhile isSpaceChar
      let ds := afterSp.takeWhile Char.isDigit
      if !sp.isEmpty && !ds.isEmpty then some (digitsToNat ds) else none
    else none
  | _ => none

/-- All matches of `answer.matchAll(/Step\s+(\d+)/gi)`, parsed by `parseInt`.
Attempting a match at every position coincides with the regex engine's
non-overlapping left-to-right scan, because no later match can begin strictly
inside an earlier one: after the opening `s`/`S` of a match, its characters are
drawn from `tep`, whitespace and digits, none of which can open a new match. -/
def scanSteps : List Char → List Nat
  | [] => []
  | c :: cs =>
    match tryStepNumAt (c :: cs) with
    | some n => n :: scanSteps cs
    | none => scanSteps cs

/-- Deduplication keeping first occurrences (JS `[...new Set(xs)]`). -/
def dedupFirst : List Nat → List Nat
  | [] => []
  | x :: xs => x :: (dedupFirst xs).filter (fun y => y != x)

/-- Insertion step of the stable ascending sort. -/
def insertAsc (x : Nat) : List Nat → List Nat
  | [] => [x]
  | y :: ys => if x ≤ y then x :: y :: ys else y :: insertAsc x ys

/-- Stable ascending sort (JS `Array.prototype.sort` with comparator `(a, b) => a - b`). -/
def sortAsc : List Nat → List Nat
  | [] => []
  | x :: xs => insertAsc x (sortAsc xs)

/-- The range-building loop of `formatStepsInAnswer`: carries the current run
`[start, e]` and emits it when the next number is not `e + 1`. -/
def buildRanges (start e : Nat) : List Nat → List (Nat × Nat)
  | [] => [(start, e)]
  | x :: xs => if x = e + 1 then buildRanges start x xs else (start, e) :: buildRanges x x xs

/-- The ranges `[start, end]` built by `formatStepsInAnswer` from `uniqueSteps`. -/
def toRanges : List Nat → List (Nat × Nat)
  | [] => []
  | x :: xs => buildRanges x x xs

/-- Rendering of one range as an anchor (single step, or `Steps S–E` with an en-dash). -/
def renderRange (p : Nat × Nat) : String :=
  if p.1 = p.2 then
    "<a href=\"#step-" ++ String.mk (natChars p.1) ++ "\">Step " ++
      String.mk (natChars p.1) ++ "</a>"
  else
    "<a href=\"#step-" ++ String.mk (natChars p.1) ++ "\">Steps " ++
      String.mk (natChars p.1) ++ "–" ++ String.mk (natChars p.2) ++ "</a>"

/-- JS `Array.prototype.join(", ")`. -/
def commaJoin : List String → String
  | [] => ""
  | [l] => l
  | l :: ls => l ++ ", " ++ commaJoin ls

/-- The human-readable joining of the rendered ranges: one link as-is, two
joined with `" and "`, three or more with Oxford-comma joining
(`links.slice(0, -1).join(", ") + ", and " + links[links.length - 1]`). -/
def joinLinks (links : List String) : String :=
  match links with
  | [] => ""
  | [l] => l
  | [l1, l2] => l1 ++ " and " ++ l2
  | _ => commaJoin links.dropLast ++ ", and " ++ links.getLastD ""

/-- JS `/steps? that deal/i.test(answer)`: the overriding pattern matches iff
one of its two alternatives occurs in the lower-cased answer. -/
def overridePat (answer : String) : Bool :=
  hasSub (lowerL answer.data) ("step that deal".data) ||
  hasSub (lowerL answer.data) ("steps that deal".data)

/-- The joined anchor list built by `formatStepsInAnswer` from the step numbers
occurring in `answer`. -/
def linksStrOf (answer : String) : String :=
  joinLinks ((toRanges (sortAsc (dedupFirst (scanSteps answer.data)))).map renderRange)

/-- `formatStepsInAnswer` from `src/server.js` (identical in all revisions
modulo the dash glyph, which `src/2nd/server.js` and `src/unnamed/part_000`
write as the en-dash used here). -/
def formatStepsInAnswer (answer : String) : String :=
  if scanSteps answer.data = [] then answer
  else if overridePat answer then "Mail merge is covered in: " ++ linksStrOf answer
  else answer ++ "<br><br>Relevant steps: " ++ linksStrOf answer

/-- A tutorial step record: `{ step, guidance }` from `rag_data.json`. -/
structure StepRecord where
  step : Int
  guidance : String
deriving DecidableEq, Repr

/-- One anchored attempt of `/step\s*(\d+)/` on the lower-cased question:
`step`, zero or more `\s`, one or more digits. -/
def tryStepLooseAt (cs : List Char) : Option Nat :=
  match cs with
  | 's' :: 't' :: 'e' :: 'p' :: rest =>
    let afterSp := rest.dropWhile isSpaceChar
    let ds := afterSp.takeWhile Char.isDigit
    if !ds.isEmpty then some (digitsToNat ds) else none
  | _ => none

/-- `q.match(/step\s*(\d+)/i)` on the (already lower-cased) question: the
leftmost match, found by trying an anchored match at each position from the
left. -/
def findStepNum : List Char → Option Nat
  | [] => none
  | c :: cs =>
    match tryStepLooseAt (c :: cs) with
    | some n => some n
    | none => findStepNum cs

/-- The keyword-scoring loop of `getRelevantSteps`:
`for (word of q.split(/\W+/))`, skipping empty or short tokens and adding 1
for each token contained in the guidance. -/
def scoreLoop (g : List Char) : List (List Char) → Nat → Nat
  | [], acc => acc
  | w :: ws, acc =>
    if w.isEmpty || w.length < 3 then scoreLoop g ws acc
    else if hasSub g w then scoreLoop g ws (acc + 1)
    else scoreLoop g ws acc

/-- Relevance score of one step record (the body of the `stepData.map` callback
in `getRelevantSteps`, including the two domain-specific boosts). -/
def scoreStep (question : String) (r : StepRecord) : Nat :=
  let q := lowerL question.data
  let g := lowerL r.guidance.data
  let base := scoreLoop g (wordTokens q) 0
  let withMm :=
    base + (if hasSub g ("mail merge".data) && hasSub q ("mail merge".data) then 2 else 0)
  withMm + (if hasSub g ("filter".data) && hasSub q ("filter".data) then 2 else 0)

variable {α β : Type*}

/-- Insertion step of a stable descending sort by key `f`: the new element goes
in front of the first element whose key is not larger.  This is the unique
stable result of JS `Array.prototype.sort` (stable per the ECMAScript
specification) with the comparator `(a, b) => b.score - a.score`. -/
def insertDescBy (f : α → Nat) (x : α) : List α → List α
  | [] => [x]
  | y :: ys => if f y ≤ f x then x :: y :: ys else y :: insertDescBy f x ys

/-- Stable descending sort by key `f`. -/
def sortDescBy (f : α → Nat) : List α → List α
  | [] => []
  | x :: xs => insertDescBy f x (sortDescBy f xs)

/-- `getRelevantSteps` from `src/server.js`, with the step collection passed
explicitly instead of read from the module-level `stepData`.  The source's
`String(s.step) === String(snum)` comparison holds for integers exactly when
the integers are equal (decimal rendering is injective), and the scored
objects `{...obj, score}` returned on the scoring path carry their record
together with a `score` field that always equals `scoreStep question obj`, so
the embedding keeps `(record, score)` pairs and projects to the record. -/
def getRelevantSteps (question : String) (stepData : List StepRecord)
    (maxSteps : Nat := 4) : List StepRecord :=
  if question = "" ∨ stepData = [] then []
  else
    let q := lowerL question.data
    match findStepNum q with
    | some snum =>
      match stepData.find? (fun s => s.step == (snum : Int)) with
      | some stepObj => [stepObj]
      | none => []
    | none =>
      let scored := stepData.map (fun obj => (obj, scoreStep question obj))
      let sorted := sortDescBy (fun p => p.2) scored
      let hits := (sorted.filter (fun p => 0 < p.2)).take maxSteps
      if hits = [] then stepData.take maxSteps else hits.map Prod.fst

/-- The keyword loop of `getRelevantTranscript`: `idx` is the first
`indexOf` hit over the words in question order, `-1` if none hits. -/
def idxLoop (lcT : List Char) : List (List Char) → Int
  | [] => -1
  | w :: ws =>
    match firstIdx lcT w with
    | some i => (i : Int)
    | none => idxLoop lcT ws

/-- `getRelevantTranscript` from `src/server.js`, with the transcript passed
explicitly instead of read from the module-level `transcriptData`. -/
def getRelevantTranscript (transcriptData question : String)
    (snippetChars : Nat := 1200) : String :=
  if transcriptData = "" then ""
  else
    let lcTranscript := lowerL transcriptData.data
    let lcQ := lowerL question.data
    let words := (wordTokens lcQ).filter (fun w => 3 < w.length)
    let idx : Int := idxLoop lcTranscript words
    let i : Nat := if idx = -1 then 0 else idx.toNat
    let start := i - 100
    let e := min lcTranscript.length (i + snippetChars)
    String.mk ((transcriptData.data.drop start).take (e - start)) ++
      (if e < transcriptData.data.length then "..." else "")

/-- Pairing each element of a list with its position, starting at `n`. -/
def withIdx : List α → Nat → List (α × Nat)
  | [], _ => []
  | x :: xs, n => (x, n) :: withIdx xs (n + 1)

/-- The closed integer interval `[s, e]` as a list. -/
def rangeList (s e : Nat) : List Nat := (List.range (e + 1 - s)).map (s + ·)

/-- Adjacent character pairs of a list. -/
def adjPairs : List Char → List (Char × Char)
  | x :: y :: r => (x, y) :: adjPairs (y :: r)
  | _ => []

/-- A (lower-cased) character list that contains no adjacent `d`,`e` pair and
does not start with `e`: text with this shape can neither contain nor help
complete the word `deal`, hence the formatter's override pattern. -/
def cleanDE (cs : List Char) : Prop :=
  ('d', 'e') ∉ adjPairs cs ∧ cs.head? ≠ some 'e'

instance (cs : List Char) : Decidable (cleanDE cs) := by
  unfold cleanDE
  infer_instance

/-- The excerpt offset as the specification words it: the first character
offset of the first question token (length > 3, in question order) that
occurs anywhere in the lower-cased transcript, or 0 if no token matches. -/
def matchOffset (transcript question : String) : Nat :=
  (((wordTokens (lowerL question.data)).filter (fun w => 3 < w.length)).findSome?
    (fun w => firstIdx (lowerL transcript.data) w)).getD 0

/-! ### Theorems -/

theorem strLength_data (s : String) : s.length = s.data.length := rfl

theorem strData_append (a b : String) : (a ++ b).data = a.data ++ b.data := rfl

theorem strLength_append (a b : String) : (a ++ b).length = a.length + b.length := by
  rw [strLength_data, strData_append, List.length_append, strLength_data, strLength_data]

/-- Claim C8: an input with no case-insensitive occurrence of `Step` followed
by whitespace and digits is returned unchanged by `formatStepsInAnswer` (which
is a total function, so it never throws); in particular
`"No steps mentioned."` is returned unchanged. -/
theorem formatSteps_no_match_id (s : String) (h : scanSteps s.data = []) :
    formatStepsInAnswer s = s ∧
    formatStepsInAnswer "No steps mentioned." = "No steps mentioned." :=
  ⟨by simp [formatStepsInAnswer, h], by decide⟩

theorem formatSteps_no_match_id_witness :
    formatStepsInAnswer "Hello there." = "Hello there." :=
  (formatSteps_no_match_id "Hello there." (by decide)).1

/-- Claim C10: with an empty (JS-falsy, which also covers an absent) question,
`getRelevantSteps` returns the empty list even on a non-empty collection —
it neither falls back to the first `maxSteps` records nor throws (it is a
total function). -/
theorem getRelevantSteps_empty_question (steps : List StepRecord) (maxSteps : Nat) :
    getRelevantSteps "" steps maxSteps = [] := by
  simp [getRelevantSteps]

/-- Claim C1 (counterexample): a question containing `"step 17"` together with
a collection containing a record with identifier 17 for which
`getRelevantSteps` does not return that record: the regex takes the first
`step\s*(\d+)` match, here `step 2`. -/
theorem getRelevantSteps_step17_cex :
    getRelevantSteps "step 2 or step 17" [⟨2, "a"⟩, ⟨17, "b"⟩] 4 ≠ [⟨17, "b"⟩] := by
  decide

/-- Claim C1 (amended): if the first case-insensitive match of `step`, optional
whitespace, digits in the question parses to 17, and the collection contains a
record with identifier 17, then `getRelevantSteps` returns exactly the first
such record and no others. -/
theorem getRelevantSteps_step17 (q : String) (steps : List StepRecord)
    (maxSteps : Nat) (r : StepRecord)
    (hfind : findStepNum (lowerL q.data) = some 17)
    (hrec : steps.find? (fun s => s.step == (17 : Int)) = some r) :
    getRelevantSteps q steps maxSteps = [r] := by
  have hq : q ≠ "" := by
    rintro rfl
    exact absurd hfind (by decide)
  have hs : steps ≠ [] := by
    rintro rfl
    simp [List.find?] at hrec
  simp [getRelevantSteps, hq, hs, hfind, hrec]

theorem getRelevantSteps_step17_witness :
    getRelevantSteps "Where is step 17" [⟨17, "g"⟩] 4 = [⟨17, "g"⟩] :=
  getRelevantSteps_step17 _ _ _ _ (by decide) (by decide)

/-- Claim C2 (counterexample): for the question `"step 99"` and a non-empty
collection without a step 99, `getRelevantSteps` returns the empty list, so
the result can be empty although the input collection is not. -/
theorem getRelevantSteps_empty_cex :
    getRelevantSteps "step 99" [⟨1, "a"⟩] 4 = [] ∧
      ([⟨1, "a"⟩] : List StepRecord) ≠ [] :=
  ⟨by decide, by decide⟩

/-- Claim C2 (amended): the result length is at most `max 1 maxSteps` (hence at
most `maxSteps` whenever `maxSteps ≥ 1`), and the result is empty only if the
collection is empty, the question is empty, `maxSteps = 0`, or the question
contains a step-number pattern whose number matches no record. -/
theorem getRelevantSteps_length_le (q : String) (steps : List StepRecord)
    (maxSteps : Nat) :
    (getRelevantSteps q steps maxSteps).length ≤ max 1 maxSteps ∧
    (getRelevantSteps q steps maxSteps = [] →
      q = "" ∨ steps = [] ∨ maxSteps = 0 ∨
      ∃ n, findStepNum (lowerL q.data) = some n ∧
        steps.find? (fun s => s.step == (n : Int)) = none) := by
  unfold getRelevantSteps
  split
  · next hguard =>
    exact ⟨by simp, fun _ => by tauto⟩
  · next hguard =>
    dsimp only
    split
    · next snum hfind =>
      split
      · next stepObj hrec =>
        refine ⟨by simp, fun h => ?_⟩
        cases h
      · next hrec =>
        exact ⟨by simp, fun _ => Or.inr (Or.inr (Or.inr ⟨snum, hfind, hrec⟩))⟩
    · next hfind =>
      split
      · next hhits =>
        refine ⟨?_, fun htake => ?_⟩
        · rw [List.length_take]
          omega
        · rcases List.take_eq_nil_iff.mp htake with h | h
          · tauto
          · tauto
      · next hhits =>
        refine ⟨?_, fun hmap => ?_⟩
        · rw [List.length_map, List.length_take]
          omega
        · exact absurd (List.map_eq_nil_iff.mp hmap) hhits

theorem getRelevantSteps_length_le_witness :
    (getRelevantSteps "how do I sort" [⟨1, "sort the rows"⟩] 4).length ≤ max 1 4 :=
  (getRelevantSteps_length_le "how do I sort" [⟨1, "sort the rows"⟩] 4).1

/-- Claim C6: when the answer matches `steps? that deal` (case-insensitively)
and mentions at least one step number, the whole output is replaced with
`"Mail merge is covered in: "` followed by the joined ranges; otherwise the
joined ranges are appended after `"<br><br>Relevant steps: "`.  The
`"Steps that deal with mail merge: Step 10, Step 11, Step 12."` example
rewrites to exactly the overridden string. -/
theorem formatSteps_deal_override (a : String) (h : scanSteps a.data ≠ []) :
    (overridePat a = true →
      formatStepsInAnswer a = "Mail merge is covered in: " ++ linksStrOf a) ∧
    (overridePat a = false →
      formatStepsInAnswer a = a ++ "<br><br>Relevant steps: " ++ linksStrOf a) ∧
    formatStepsInAnswer "Steps that deal with mail merge: Step 10, Step 11, Step 12." =
      "Mail merge is covered in: <a href=\"#step-10\">Steps 10–12</a>" := by
  refine ⟨fun ho => ?_, fun ho => ?_, by decide⟩
  · simp [formatStepsInAnswer, h, ho]
  · simp [formatStepsInAnswer, h, ho]

theorem formatSteps_deal_override_witness :
    formatStepsInAnswer "Steps that deal with mail merge: Step 10, Step 11, Step 12." =
      "Mail merge is covered in: <a href=\"#step-10\">Steps 10–12</a>" :=
  (formatSteps_deal_override "see Step 4" (by decide)).2.2

/-- The scoring loop counts, with multiplicity, the tokens of length ≥ 3 that
occur in the guidance. -/
theorem scoreLoop_eq_countP (g : List Char) (ws : List (List Char)) (acc : Nat) :
    scoreLoop g ws acc =
      acc + (ws.filter (fun w => 3 ≤ w.length)).countP (fun w => hasSub g w) := by
  induction ws generalizing acc with
  | nil => simp [scoreLoop]
  | cons w ws ih =>
    simp only [scoreLoop]
    by_cases hlen : 3 ≤ w.length
    · have hempty : w.isEmpty = false := by
        cases w
        · simp at hlen
        · rfl
      have hc : (w.isEmpty || decide (w.length < 3)) = false := by
        rw [hempty]
        simp only [Bool.false_or, decide_eq_false_iff_not]
        omega
      have hfc : List.filter (fun w => decide (3 ≤ w.length)) (w :: ws) =
          w :: List.filter (fun w => decide (3 ≤ w.length)) ws :=
        List.filter_cons_of_pos (by simpa using hlen)
      rw [hc]
      by_cases hsub : hasSub g w = true
      · rw [if_neg (by simp), if_pos hsub, ih, hfc,
          List.countP_cons_of_pos _ _ (by simpa using hsub)]
        omega
      · rw [if_neg (by simp), if_neg hsub, ih, hfc,
          List.countP_cons_of_neg _ _ (by simpa using hsub)]
    · have hc : (w.isEmpty || decide (w.length < 3)) = true := by
        simp only [Bool.or_eq_true, decide_eq_true_eq]
        right
        omega
      rw [hc, if_pos rfl, ih, List.filter_cons_of_neg (by simpa using hlen)]

/-- Claim C3: on the scoring path (no `step <N>` pattern in the question), the
relevance score equals the number, with multiplicity, of question tokens of
length ≥ 3 that occur as substrings of the lower-cased guidance, plus 2 when
guidance and question both contain `"mail merge"`, plus 2 more when both
contain `"filter"`.  The score is a `Nat`, hence a non-negative integer. -/
theorem scoreStep_formula (q : String) (r : StepRecord)
    (_hpath : findStepNum (lowerL q.data) = none) :
    scoreStep q r =
      ((wordTokens (lowerL q.data)).filter (fun w => 3 ≤ w.length)).countP
          (fun w => hasSub (lowerL r.guidance.data) w) +
        (if hasSub (lowerL r.guidance.data) ("mail merge".data) &&
            hasSub (lowerL q.data) ("mail merge".data) then 2 else 0) +
        (if hasSub (lowerL r.guidance.data) ("filter".data) &&
            hasSub (lowerL q.data) ("filter".data) then 2 else 0) := by
  unfold scoreStep
  dsimp only
  rw [scoreLoop_eq_countP, Nat.zero_add]

theorem scoreStep_formula_witness :
    scoreStep "please explain mail merge filters" ⟨3, "Mail merge filter guidance"⟩ = 6 :=
  (scoreStep_formula "please explain mail merge filters" ⟨3, "Mail merge filter guidance"⟩
    (by decide)).trans (by decide)

theorem idxLoop_natIdx_eq (lcT : List Char) (ws : List (List Char)) :
    (if idxLoop lcT ws = -1 then 0 else (idxLoop lcT ws).toNat) =
      (ws.findSome? (fun w => firstIdx lcT w)).getD 0 := by
  induction ws with
  | nil => rfl
  | cons w ws ih =>
    cases h : firstIdx lcT w with
    | some i =>
      have hne : (i : Int) ≠ -1 := by omega
      simp [idxLoop, h, List.findSome?_cons, hne]
    | none =>
      simpa [idxLoop, h, List.findSome?_cons] using ih

/-- Claim C7: on an empty transcript the excerpt is empty (and the function is
total, so it never throws); on a non-empty transcript the excerpt is the
substring from `max 0 (off − 100)` to `min length (off + snippetChars)`, where
`off` is the offset of the first occurrence of the first matching question
token (`matchOffset`, with fallback 0), followed by `"..."` exactly when the
excerpt does not reach the end; and the result length is at most
`snippetChars + 100 + 3`. -/
theorem getRelevantTranscript_spec (t q : String) (sc : Nat) :
    (t = "" → getRelevantTranscript t q sc = "") ∧
    (t ≠ "" →
      getRelevantTranscript t q sc =
        String.mk ((t.data.drop (matchOffset t q - 100)).take
            (min t.data.length (matchOffset t q + sc) - (matchOffset t q - 100))) ++
          (if min t.data.length (matchOffset t q + sc) < t.data.length
            then "..." else "")) ∧
    (getRelevantTranscript t q sc).length ≤ sc + 100 + 3 := by
  by_cases ht : t = ""
  · subst ht
    refine ⟨fun _ => by simp [getRelevantTranscript], fun h => absurd rfl h, ?_⟩
    simp [getRelevantTranscript]
  · have heq : getRelevantTranscript t q sc =
        String.mk ((t.data.drop (matchOffset t q - 100)).take
            (min t.data.length (matchOffset t q + sc) - (matchOffset t q - 100))) ++
          (if min t.data.length (matchOffset t q + sc) < t.data.length
            then "..." else "") := by
      unfold getRelevantTranscript
      rw [if_neg ht]
      dsimp only
      rw [idxLoop_natIdx_eq]
      have hlen : (lowerL t.data).length = t.data.length := by
        simp [lowerL]
      rw [hlen]
      rfl
    refine ⟨fun h => absurd h ht, fun _ => heq, ?_⟩
    rw [heq, strLength_append, strLength_data]
    have h1 : (String.mk ((t.data.drop (matchOffset t q - 100)).take
        (min t.data.length (matchOffset t q + sc) - (matchOffset t q - 100)))).data =
        (t.data.drop (matchOffset t q - 100)).take
          (min t.data.length (matchOffset t q + sc) - (matchOffset t q - 100)) := rfl
    rw [h1]
    have h2 : ((t.data.drop (matchOffset t q - 100)).take
        (min t.data.length (matchOffset t q + sc) - (matchOffset t q - 100))).length ≤
        min t.data.length (matchOffset t q + sc) - (matchOffset t q - 100) := by
      rw [List.length_take]
      omega
    have h3 : (if min t.data.length (matchOffset t q + sc) < t.data.length
        then ("..." : String) else "").length ≤ 3 := by
      split
      · decide
      · decide
    omega

theorem mem_dedupFirst (a : Nat) (l : List Nat) : a ∈ dedupFirst l ↔ a ∈ l := by
  induction l with
  | nil => simp [dedupFirst]
  | cons x xs ih =>
    simp only [dedupFirst, List.mem_cons, List.mem_filter, ih, bne_iff_ne, ne_eq]
    constructor
    · rintro (rfl | ⟨h, _⟩)
      · exact Or.inl rfl
      · exact Or.inr h
    · rintro (rfl | h)
      · exact Or.inl rfl
      · by_cases hx : a = x
        · exact Or.inl hx
        · exact Or.inr ⟨h, hx⟩

theorem nodup_dedupFirst (l : List Nat) : (dedupFirst l).Nodup := by
  induction l with
  | nil => simp [dedupFirst]
  | cons x xs ih =>
    simp only [dedupFirst, List.nodup_cons]
    refine ⟨fun hmem => ?_, ih.filter _⟩
    rcases List.mem_filter.mp hmem with ⟨_, hne⟩
    simp at hne

theorem insertAsc_perm (x : Nat) (l : List Nat) : (insertAsc x l).Perm (x :: l) := by
  induction l with
  | nil => rfl
  | cons y ys ih =>
    simp only [insertAsc]
    split
    · rfl
    · exact (ih.cons y).trans (List.Perm.swap x y ys)

theorem sortAsc_perm (l : List Nat) : (sortAsc l).Perm l := by
  induction l with
  | nil => rfl
  | cons x xs ih => exact (insertAsc_perm x (sortAsc xs)).trans (ih.cons x)

theorem insertAsc_pairwise (x : Nat) (l : List Nat)
    (h : l.Pairwise (· ≤ ·)) : (insertAsc x l).Pairwise (· ≤ ·) := by
  induction l with
  | nil => simp [insertAsc]
  | cons y ys ih =>
    rcases List.pairwise_cons.mp h with ⟨hy, hys⟩
    simp only [insertAsc]
    split
    · next hxy =>
      refine List.pairwise_cons.mpr ⟨?_, h⟩
      intro b hb
      rcases List.mem_cons.mp hb with rfl | hb
      · exact hxy
      · exact le_trans hxy (hy b hb)
    · next hxy =>
      refine List.pairwise_cons.mpr ⟨?_, ih hys⟩
      intro b hb
      rcases List.mem_cons.mp ((insertAsc_perm x ys).mem_iff.mp hb) with rfl | hb'
      · omega
      · exact hy b hb'

theorem sortAsc_pairwise (l : List Nat) : (sortAsc l).Pairwise (· ≤ ·) := by
  induction l with
  | nil => simp [sortAsc]
  | cons x xs ih => exact insertAsc_pairwise x (sortAsc xs) ih

theorem sortAsc_dedup_strict (l : List Nat) :
    (sortAsc (dedupFirst l)).Pairwise (· < ·) := by
  have hnd : (sortAsc (dedupFirst l)).Nodup :=
    ((sortAsc_perm (dedupFirst l)).nodup_iff).mpr (nodup_dedupFirst l)
  exact ((sortAsc_pairwise (dedupFirst l)).and hnd).imp
    (fun h => lt_of_le_of_ne h.1 h.2)

theorem rangeList_self (x : Nat) : rangeList x x = [x] := by
  unfold rangeList
  rw [Nat.add_sub_cancel_left]
  simp [List.range_succ]

theorem rangeList_append_one (s e : Nat) (h : s ≤ e) :
    rangeList s (e + 1) = rangeList s e ++ [e + 1] := by
  unfold rangeList
  have h1 : e + 1 + 1 - s = (e + 1 - s) + 1 := by omega
  rw [h1, List.range_succ, List.map_append, List.map_singleton]
  have h2 : s + (e + 1 - s) = e + 1 := by omega
  rw [h2]

theorem mem_rangeList_left (s e : Nat) (h : s ≤ e) : s ∈ rangeList s e := by
  unfold rangeList
  exact List.mem_map.mpr ⟨0, List.mem_range.mpr (by omega), by omega⟩

theorem mem_rangeList_right (s e : Nat) (h : s ≤ e) : e ∈ rangeList s e := by
  unfold rangeList
  exact List.mem_map.mpr ⟨e - s, List.mem_range.mpr (by omega), by omega⟩

theorem buildRanges_spec (xs : List Nat) : ∀ s e : Nat, s ≤ e →
    (e :: xs).Pairwise (· < ·) →
    (buildRanges s e xs).flatMap (fun p => rangeList p.1 p.2) = rangeList s e ++ xs ∧
    (∀ p ∈ buildRanges s e xs, p.1 ≤ p.2) ∧
    List.Chain' (fun p r => p.2 + 1 < r.1) (buildRanges s e xs) ∧
    (buildRanges s e xs).head?.map Prod.fst = some s := by
  induction xs with
  | nil =>
    intro s e hse _
    refine ⟨by simp [buildRanges], ?_, by simp [buildRanges], rfl⟩
    intro p hp
    have hp' : p = (s, e) := by simpa [buildRanges] using hp
    rw [hp']
    exact hse
  | cons x xs ih =>
    intro s e hse hsort
    have hex : e < x := (List.pairwise_cons.mp hsort).1 x (by simp)
    have htail : (x :: xs).Pairwise (· < ·) := (List.pairwise_cons.mp hsort).2
    simp only [buildRanges]
    split
    · next hx =>
      obtain ⟨h1, h2, h3, h4⟩ := ih s x (by omega) htail
      refine ⟨?_, h2, h3, h4⟩
      rw [h1, hx, rangeList_append_one s e hse, List.append_assoc,
        List.singleton_append, ← hx]
    · next hx =>
      have hgap : e + 1 < x := by omega
      obtain ⟨h1, h2, h3, h4⟩ := ih x x le_rfl htail
      refine ⟨?_, ?_, ?_, rfl⟩
      · rw [List.flatMap_cons, h1, rangeList_self, List.singleton_append]
      · intro p hp
        rcases List.mem_cons.mp hp with rfl | hp
        · exact hse
        · exact h2 p hp
      · rw [List.chain'_cons']
        refine ⟨?_, h3⟩
        intro r hr
        have hr' : (buildRanges x x xs).head? = some r := hr
        rw [hr'] at h4
        have h4' : r.1 = x := by simpa using h4
        show e + 1 < r.1
        omega

/-- Claim C5: on an input with at least one step-number match, the extracted
numbers are deduplicated and sorted strictly ascending, the ranges are exactly
a partition of that sequence into maximal runs of consecutive integers (the
concatenation of the closed ranges restores the sequence, each range is
well-formed, and consecutive ranges are separated by a gap), every rendered
range endpoint was extracted from the input, and the concrete renderings and
joinings behave as the specification's examples state (single run as-is, two
runs with `" and "`, three runs with an Oxford comma, single-step runs as
`Step N` anchors and multi-step runs as `Steps S–E` anchors). -/
theorem formatSteps_range_partition (s : String) (h : scanSteps s.data ≠ []) :
    (∀ n, n ∈ sortAsc (dedupFirst (scanSteps s.data)) ↔ n ∈ scanSteps s.data) ∧
    (sortAsc (dedupFirst (scanSteps s.data))).Pairwise (· < ·) ∧
    (toRanges (sortAsc (dedupFirst (scanSteps s.data)))).flatMap
        (fun p => rangeList p.1 p.2) = sortAsc (dedupFirst (scanSteps s.data)) ∧
    (∀ p ∈ toRanges (sortAsc (dedupFirst (scanSteps s.data))), p.1 ≤ p.2) ∧
    List.Chain' (fun p r => p.2 + 1 < r.1)
      (toRanges (sortAsc (dedupFirst (scanSteps s.data)))) ∧
    (∀ p ∈ toRanges (sortAsc (dedupFirst (scanSteps s.data))),
      p.1 ∈ scanSteps s.data ∧ p.2 ∈ scanSteps s.data) ∧
    formatStepsInAnswer "See Step 52 and Step 53 and Step 55." =
      "See Step 52 and Step 53 and Step 55.<br><br>Relevant steps: <a href=\"#step-52\">Steps 52–53</a> and <a href=\"#step-55\">Step 55</a>" ∧
    formatStepsInAnswer "Step 7." =
      "Step 7.<br><br>Relevant steps: <a href=\"#step-7\">Step 7</a>" ∧
    formatStepsInAnswer "Step 1, Step 3, Step 9" =
      "Step 1, Step 3, Step 9<br><br>Relevant steps: <a href=\"#step-1\">Step 1</a>, <a href=\"#step-3\">Step 3</a>, and <a href=\"#step-9\">Step 9</a>" := by
  have hmem : ∀ n, n ∈ sortAsc (dedupFirst (scanSteps s.data)) ↔ n ∈ scanSteps s.data := by
    intro n
    rw [(sortAsc_perm _).mem_iff, mem_dedupFirst]
  have hstrict := sortAsc_dedup_strict (scanSteps s.data)
  obtain ⟨m, hm⟩ : ∃ m, m ∈ scanSteps s.data := by
    cases hcase : scanSteps s.data with
    | nil => exact absurd hcase h
    | cons a l => exact ⟨a, by simp [hcase]⟩
  cases hu : sortAsc (dedupFirst (scanSteps s.data)) with
  | nil => exact absurd ((hmem m).mpr hm) (by simp [hu])
  | cons x xs =>
    have hsort' : (x :: xs).Pairwise (· < ·) := hu ▸ hstrict
    obtain ⟨h1, h2, h3, h4⟩ := buildRanges_spec xs x x le_rfl hsort'
    have hmem' : ∀ n, n ∈ x :: xs → n ∈ scanSteps s.data := by
      intro n hn
      exact (hmem n).mp (by rw [hu]; exact hn)
    refine ⟨hu ▸ hmem, hu ▸ hstrict, ?_, ?_, ?_, ?_, by decide, by decide, by decide⟩
    · show (buildRanges x x xs).flatMap (fun p => rangeList p.1 p.2) = x :: xs
      rw [h1, rangeList_self, List.singleton_append]
    · exact h2
    · exact h3
    · intro p hp
      constructor
      · refine hmem' p.1 ?_
        rw [show x :: xs = (buildRanges x x xs).flatMap (fun p => rangeList p.1 p.2) by
          rw [h1, rangeList_self, List.singleton_append]]
        exact List.mem_flatMap.mpr ⟨p, hp, mem_rangeList_left _ _ (h2 p hp)⟩
      · refine hmem' p.2 ?_
        rw [show x :: xs = (buildRanges x x xs).flatMap (fun p => rangeList p.1 p.2) by
          rw [h1, rangeList_self, List.singleton_append]]
        exact List.mem_flatMap.mpr ⟨p, hp, mem_rangeList_right _ _ (h2 p hp)⟩

theorem insertDescBy_perm (f : α → Nat) (x : α) (l : List α) :
    (insertDescBy f x l).Perm (x :: l) := by
  induction l with
  | nil => rfl
  | cons y ys ih =>
    simp only [insertDescBy]
    split
    · rfl
    · exact (ih.cons y).trans (List.Perm.swap x y ys)

theorem sortDescBy_perm (f : α → Nat) (l : List α) : (sortDescBy f l).Perm l := by
  induction l with
  | nil => rfl
  | cons x xs ih => exact (insertDescBy_perm f x (sortDescBy f xs)).trans (ih.cons x)

/-- Inserting an element whose position index is below every index in a list
that is already stably sorted (descending keys, ties by ascending index)
keeps the list stably sorted. -/
theorem insertDescBy_pairwise_stable (f g : α → Nat) (x : α) (l : List α)
    (hx : ∀ y ∈ l, g x < g y)
    (hl : l.Pairwise (fun a b => f b < f a ∨ (f a = f b ∧ g a < g b))) :
    (insertDescBy f x l).Pairwise
      (fun a b => f b < f a ∨ (f a = f b ∧ g a < g b)) := by
  induction l with
  | nil => simp [insertDescBy]
  | cons y ys ih =>
    rcases List.pairwise_cons.mp hl with ⟨hy, hys⟩
    simp only [insertDescBy]
    split
    · next hxy =>
      refine List.pairwise_cons.mpr ⟨?_, hl⟩
      intro b hb
      rcases List.mem_cons.mp hb with rfl | hb
      · rcases lt_or_eq_of_le hxy with hlt | heq
        · exact Or.inl hlt
        · exact Or.inr ⟨heq.symm, hx b (by simp)⟩
      · rcases hy b hb with hlt | ⟨heq, _⟩
        · exact Or.inl (lt_of_lt_of_le hlt hxy)
        · rcases lt_or_eq_of_le (heq ▸ hxy) with hlt | heq2
          · exact Or.inl hlt
          · exact Or.inr ⟨heq2.symm, hx b (List.mem_cons_of_mem y hb)⟩
    · next hxy =>
      push_neg at hxy
      refine List.pairwise_cons.mpr
        ⟨?_, ih (fun z hz => hx z (List.mem_cons_of_mem y hz)) hys⟩
      intro b hb
      rcases List.mem_cons.mp ((insertDescBy_perm f x ys).mem_iff.mp hb) with rfl | hb'
      · exact Or.inl hxy
      · exact hy b hb'

/-- The stable descending sort of a list whose positions are strictly
increasing is descending in the keys, with ties in ascending position order. -/
theorem sortDescBy_pairwise_stable (f g : α → Nat) (l : List α)
    (h : l.Pairwise (fun a b => g a < g b)) :
    (sortDescBy f l).Pairwise
      (fun a b => f b < f a ∨ (f a = f b ∧ g a < g b)) := by
  induction l with
  | nil => simp [sortDescBy]
  | cons x xs ih =>
    rcases List.pairwise_cons.mp h with ⟨hx, hxs⟩
    refine insertDescBy_pairwise_stable f g x (sortDescBy f xs) ?_ (ih hxs)
    intro y hy
    exact hx y ((sortDescBy_perm f xs).mem_iff.mp hy)

theorem insertDescBy_map (π : β → α) (f : α → Nat) (x : β) (l : List β) :
    (insertDescBy (fun b => f (π b)) x l).map π = insertDescBy f (π x) (l.map π) := by
  induction l with
  | nil => rfl
  | cons y ys ih =>
    simp only [insertDescBy, List.map_cons]
    split
    · next hc => simp
    · next hc => simp [ih]

theorem sortDescBy_map (π : β → α) (f : α → Nat) (l : List β) :
    (sortDescBy (fun b => f (π b)) l).map π = sortDescBy f (l.map π) := by
  induction l with
  | nil => rfl
  | cons x xs ih =>
    simp only [sortDescBy, List.map_cons, ← ih, insertDescBy_map]

theorem withIdx_map_fst (l : List α) (n : Nat) : (withIdx l n).map Prod.fst = l := by
  induction l generalizing n with
  | nil => rfl
  | cons x xs ih => simp [withIdx, ih]

theorem mem_withIdx_le (l : List α) (n : Nat) (p : α × Nat) (hp : p ∈ withIdx l n) :
    n ≤ p.2 := by
  induction l generalizing n with
  | nil => simp [withIdx] at hp
  | cons x xs ih =>
    rcases List.mem_cons.mp hp with rfl | hp
    · simp
    · exact le_trans (by omega) (ih (n + 1) hp)

theorem withIdx_pairwise (l : List α) (n : Nat) :
    (withIdx l n).Pairwise (fun a b => a.2 < b.2) := by
  induction l generalizing n with
  | nil => simp [withIdx]
  | cons x xs ih =>
    refine List.pairwise_cons.mpr ⟨?_, ih (n + 1)⟩
    intro b hb
    have := mem_withIdx_le xs (n + 1) b hb
    show n < b.2
    omega

theorem mem_withIdx (l : List α) (n : Nat) (p : α × Nat) (hp : p ∈ withIdx l n) :
    ∃ k, ∃ hk : k < l.length, p.2 = n + k ∧ l.get ⟨k, hk⟩ = p.1 := by
  induction l generalizing n with
  | nil => simp [withIdx] at hp
  | cons x xs ih =>
    rcases List.mem_cons.mp hp with rfl | hp
    · exact ⟨0, by simp, by simp, rfl⟩
    · obtain ⟨k, hk, h1, h2⟩ := ih (n + 1) hp
      exact ⟨k + 1, by simpa using hk, by omega, h2⟩

theorem get_map_own (f : α → β) (l : List α) (k : Nat) (hk : k < (l.map f).length)
    (hk' : k < l.length) : (l.map f).get ⟨k, hk⟩ = f (l.get ⟨k, hk'⟩) := by
  induction l generalizing k with
  | nil => simp at hk'
  | cons x xs ih =>
    cases k with
    | zero => rfl
    | succ k => exact ih k (by simpa using hk) (by simpa using hk')

theorem get_mem_withIdx (l : List α) (n k : Nat) (hk : k < l.length) :
    (l.get ⟨k, hk⟩, n + k) ∈ withIdx l n := by
  induction l generalizing n k with
  | nil => simp at hk
  | cons x xs ih =>
    cases k with
    | zero => simp [withIdx]
    | succ k =>
      have harith : n + (k + 1) = (n + 1) + k := by omega
      rw [harith]
      exact List.mem_cons_of_mem _ (ih (n + 1) k (by simpa using hk))

/-- Claim C4: on the scoring path, `getRelevantSteps` returns at most
`maxSteps` records; if no record scores above zero it returns the first
`maxSteps` records in original order; and the returned records can be
annotated with pairwise-distinct original positions so that they are ordered
by strictly descending score with ties in ascending original position (the
stable descending sort order), and every non-returned record with nonzero
score scores no more than any returned record. -/
theorem getRelevantSteps_scoring (q : String) (steps : List StepRecord)
    (maxSteps : Nat) (hq : q ≠ "")
    (hpath : findStepNum (lowerL q.data) = none) :
    (getRelevantSteps q steps maxSteps).length ≤ maxSteps ∧
    ((∀ r ∈ steps, scoreStep q r = 0) →
      getRelevantSteps q steps maxSteps = steps.take maxSteps) ∧
    ∃ F : List (StepRecord × Nat),
      getRelevantSteps q steps maxSteps = F.map Prod.fst ∧
      (F.map Prod.snd).Nodup ∧
      (∀ p ∈ F, ∃ hp : p.2 < steps.length, steps.get ⟨p.2, hp⟩ = p.1) ∧
      F.Pairwise (fun a b => scoreStep q b.1 < scoreStep q a.1 ∨
        (scoreStep q a.1 = scoreStep q b.1 ∧ a.2 < b.2)) ∧
      (∀ j, ∀ hj : j < steps.length, (∀ p ∈ F, p.2 ≠ j) →
        0 < scoreStep q (steps.get ⟨j, hj⟩) →
        ∀ p ∈ F, scoreStep q (steps.get ⟨j, hj⟩) ≤ scoreStep q p.1) := by
  by_cases hsteps : steps = []
  · subst hsteps
    have hout : getRelevantSteps q [] maxSteps = [] := by
      simp [getRelevantSteps]
    refine ⟨by simp [hout], fun _ => by simp [hout], [], by simp [hout], by simp, ?_, by simp, ?_⟩
    · intro p hp
      simp at hp
    · intro j hj
      simp at hj
  · -- the scoring branch of the source
    have hbranch : getRelevantSteps q steps maxSteps =
        (if ((sortDescBy (fun p => p.2)
              (steps.map (fun obj => (obj, scoreStep q obj)))).filter
              (fun p => 0 < p.2)).take maxSteps = []
          then steps.take maxSteps
          else (((sortDescBy (fun p => p.2)
              (steps.map (fun obj => (obj, scoreStep q obj)))).filter
              (fun p => 0 < p.2)).take maxSteps).map Prod.fst) := by
      unfold getRelevantSteps
      rw [if_neg (by simp [hq, hsteps])]
      dsimp only
      rw [hpath]
    -- notation for the pipeline stages
    set scored := steps.map (fun obj => (obj, scoreStep q obj)) with hscored
    set ann := withIdx scored 0 with hann
    set sortedAnn := sortDescBy (fun a => a.1.2) ann with hsortedAnn
    set filtAnn := sortedAnn.filter (fun a => 0 < a.1.2) with hfiltAnn
    set takeAnn := filtAnn.take maxSteps with htakeAnn
    -- the plain pipeline is the annotated pipeline with indices dropped
    have hsim : sortDescBy (fun p => p.2) scored = sortedAnn.map Prod.fst := by
      rw [hsortedAnn, sortDescBy_map Prod.fst (fun p => p.2) ann, hann, withIdx_map_fst]
    have hfiltsim : (sortDescBy (fun p => p.2) scored).filter (fun p => 0 < p.2) =
        filtAnn.map Prod.fst := by
      rw [hsim, hfiltAnn, List.filter_map]
      rfl
    have htakesim : ((sortDescBy (fun p => p.2) scored).filter
        (fun p => 0 < p.2)).take maxSteps = takeAnn.map Prod.fst := by
      rw [hfiltsim, htakeAnn, List.map_take]
    -- score of every annotated element is the score of its record
    have hscore : ∀ a : (StepRecord × Nat) × Nat, a ∈ ann →
        a.1.2 = scoreStep q a.1.1 := by
      intro a ha
      have h1 : a.1 ∈ scored := by
        have := List.mem_map_of_mem Prod.fst ha
        rwa [hann, withIdx_map_fst] at this
      rcases List.mem_map.mp h1 with ⟨r, _, hr⟩
      rw [← hr]
    have hscoreSorted : ∀ a : (StepRecord × Nat) × Nat, a ∈ sortedAnn →
        a.1.2 = scoreStep q a.1.1 :=
      fun a ha => hscore a ((sortDescBy_perm _ ann).mem_iff.mp ha)
    -- membership of annotated elements in the original collection
    have hmemAnn : ∀ a : (StepRecord × Nat) × Nat, a ∈ ann →
        ∃ hp : a.2 < steps.length, steps.get ⟨a.2, hp⟩ = a.1.1 := by
      intro a ha
      obtain ⟨k, hk, h1, h2⟩ := mem_withIdx scored 0 a ha
      have ha2 : a.2 = k := by omega
      subst ha2
      have hk' : a.2 < steps.length := by
        have hlen : scored.length = steps.length := by
          rw [hscored, List.length_map]
        omega
      have hget : scored.get ⟨a.2, hk⟩ =
          (steps.get ⟨a.2, hk'⟩, scoreStep q (steps.get ⟨a.2, hk'⟩)) :=
        get_map_own _ steps a.2 hk hk'
      refine ⟨hk', ?_⟩
      rw [← h2, hget]
    -- the stable sort order on the annotated sorted list
    have hstable : sortedAnn.Pairwise
        (fun a b => b.1.2 < a.1.2 ∨ (a.1.2 = b.1.2 ∧ a.2 < b.2)) := by
      rw [hsortedAnn]
      exact sortDescBy_pairwise_stable (fun a => a.1.2) (fun a => a.2) ann
        (withIdx_pairwise scored 0)
    have hstableFilt : filtAnn.Pairwise
        (fun a b => b.1.2 < a.1.2 ∨ (a.1.2 = b.1.2 ∧ a.2 < b.2)) :=
      hstable.filter _
    -- indices in the annotated lists are pairwise distinct
    have hnodupAnn : (sortedAnn.map Prod.snd).Nodup := by
      have hperm : (sortedAnn.map Prod.snd).Perm (ann.map Prod.snd) :=
        (sortDescBy_perm _ ann).map Prod.snd
      refine hperm.nodup_iff.mpr ?_
      have := withIdx_pairwise scored 0
      exact (List.pairwise_map.mpr this).imp (fun h => Nat.ne_of_lt h)
    by_cases hfall : takeAnn.map Prod.fst = []
    · -- fallback: no positively scored record survives the take
      have hout : getRelevantSteps q steps maxSteps = steps.take maxSteps := by
        rw [hbranch, htakesim, if_pos hfall]
      have htakeAnnNil : takeAnn = [] := by
        cases htakeAnn' : takeAnn with
        | nil => rfl
        | cons a l => rw [htakeAnn'] at hfall; simp at hfall
      rcases List.take_eq_nil_iff.mp htakeAnnNil with hms | hfilt
      · -- maxSteps = 0
        subst hms
        refine ⟨by simp [hout], fun _ => hout, [], by simp [hout], by simp, ?_, by simp, ?_⟩
        · intro p hp
          cases hp
        · intro j hj _ _ p hp
          cases hp
      · -- every record scores zero
        have hzero : ∀ r ∈ steps, scoreStep q r = 0 := by
          intro r hr
          have hin : (r, scoreStep q r) ∈ scored := by
            rw [hscored]
            exact List.mem_map_of_mem _ hr
          have hin2 : ∃ a ∈ ann, a.1 = (r, scoreStep q r) := by
            have : (r, scoreStep q r) ∈ ann.map Prod.fst := by
              rw [hann, withIdx_map_fst]
              exact hin
            exact List.mem_map.mp this
          obtain ⟨a, ha, ha1⟩ := hin2
          have ha' : a ∈ sortedAnn := (sortDescBy_perm _ ann).mem_iff.mpr ha
          have := List.filter_eq_nil_iff.mp hfilt a ha'
          simp only [ha1, decide_eq_true_eq] at this
          omega
        refine ⟨?_, fun _ => hout, withIdx (steps.take maxSteps) 0, ?_, ?_, ?_, ?_, ?_⟩
        · rw [hout, List.length_take]
          omega
        · rw [hout, withIdx_map_fst]
        · have := withIdx_pairwise (steps.take maxSteps) 0
          exact (List.pairwise_map.mpr this).imp (fun h => Nat.ne_of_lt h)
        · intro p hp
          obtain ⟨k, hk, h1, h2⟩ := mem_withIdx (steps.take maxSteps) 0 p hp
          have hp2 : p.2 = k := by omega
          subst hp2
          have hk' : p.2 < steps.length := by
            rw [List.length_take] at hk
            omega
          have hgt : (steps.take maxSteps).get ⟨p.2, hk⟩ = steps.get ⟨p.2, hk'⟩ :=
            (List.get_take steps hk' (by rw [List.length_take] at hk; omega)).symm
          refine ⟨hk', ?_⟩
          rw [← h2, hgt]
        · -- all scores are zero, so ties are ordered by ascending index
          have hp := withIdx_pairwise (steps.take maxSteps) 0
          refine hp.imp_of_mem ?_
          intro a b ha hb hab
          refine Or.inr ⟨?_, hab⟩
          obtain ⟨k1, hk1, _, hg1⟩ := mem_withIdx _ 0 a ha
          obtain ⟨k2, hk2, _, hg2⟩ := mem_withIdx _ 0 b hb
          have ha1 : a.1 ∈ steps := List.mem_of_mem_take (hg1 ▸ List.get_mem _ k1 hk1)
          have hb1 : b.1 ∈ steps := List.mem_of_mem_take (hg2 ▸ List.get_mem _ k2 hk2)
          rw [hzero a.1 ha1, hzero b.1 hb1]
        · intro j hj _ hpos
          exact absurd (hzero (steps.get ⟨j, hj⟩) (List.get_mem steps j hj)) (by omega)
    · -- the main case: some positively scored records are returned
      have hout : getRelevantSteps q steps maxSteps = takeAnn.map (fun a => a.1.1) := by
        rw [hbranch, htakesim, if_neg hfall, List.map_map]
        rfl
      have hsubl : List.Sublist takeAnn sortedAnn :=
        List.Sublist.trans (List.take_sublist maxSteps filtAnn) (List.filter_sublist _)
      have hmemTake : ∀ a : (StepRecord × Nat) × Nat, a ∈ takeAnn → a ∈ sortedAnn :=
        fun a ha => hsubl.subset ha
      refine ⟨?_, ?_, takeAnn.map (fun a => (a.1.1, a.2)), ?_, ?_, ?_, ?_, ?_⟩
      · rw [hout, List.length_map, htakeAnn, List.length_take]
        omega
      · -- all-zero scores are impossible here
        intro hzero
        exfalso
        apply hfall
        have hfilt : filtAnn = [] := by
          rw [hfiltAnn]
          refine List.filter_eq_nil_iff.mpr ?_
          intro a ha
          have hmem1 : a.1.1 ∈ steps := by
            obtain ⟨hp, hget⟩ := hmemAnn a ((sortDescBy_perm _ ann).mem_iff.mp ha)
            exact hget ▸ List.get_mem _ _ hp
          have h0 := hscoreSorted a ha
          rw [hzero a.1.1 hmem1] at h0
          simp [h0]
        rw [htakeAnn, hfilt]
        simp
      · rw [hout, List.map_map]
        rfl
      · rw [List.map_map]
        have : ((fun p => p.2) ∘ fun a : (StepRecord × Nat) × Nat => (a.1.1, a.2)) =
            fun a : (StepRecord × Nat) × Nat => a.2 := rfl
        rw [this]
        have hsubl2 : List.Sublist (takeAnn.map (fun a : (StepRecord × Nat) × Nat => a.2))
            (sortedAnn.map Prod.snd) := hsubl.map _
        exact hnodupAnn.sublist hsubl2
      · intro p hp
        rcases List.mem_map.mp hp with ⟨a, ha, rfl⟩
        obtain ⟨hlt, hget⟩ := hmemAnn a ((sortDescBy_perm _ ann).mem_iff.mp (hmemTake a ha))
        exact ⟨hlt, hget⟩
      · refine List.pairwise_map.mpr ?_
        refine (hstableFilt.sublist (List.take_sublist maxSteps filtAnn)).imp_of_mem ?_
        intro a b ha hb hab
        have hsa := hscoreSorted a (hmemTake a ha)
        have hsb := hscoreSorted b (hmemTake b hb)
        dsimp only
        rw [← hsa, ← hsb]
        exact hab
      · intro j hj hnot hpos p hp
        rcases List.mem_map.mp hp with ⟨a, ha, rfl⟩
        -- the record at position j appears in the annotated sorted list
        have hjmem : ((steps.get ⟨j, hj⟩, scoreStep q (steps.get ⟨j, hj⟩)), j) ∈ ann := by
          have hj' : j < scored.length := by
            rw [hscored, List.length_map]
            exact hj
          have := get_mem_withIdx scored 0 j hj'
          rw [Nat.zero_add] at this
          have hget : scored.get ⟨j, hj'⟩ =
              (steps.get ⟨j, hj⟩, scoreStep q (steps.get ⟨j, hj⟩)) :=
            get_map_own _ steps j hj' hj
          rwa [hget] at this
        have hjsorted : ((steps.get ⟨j, hj⟩, scoreStep q (steps.get ⟨j, hj⟩)), j) ∈ sortedAnn :=
          (sortDescBy_perm _ ann).mem_iff.mpr hjmem
        have hjfilt : ((steps.get ⟨j, hj⟩, scoreStep q (steps.get ⟨j, hj⟩)), j) ∈ filtAnn := by
          rw [hfiltAnn]
          refine List.mem_filter.mpr ⟨hjsorted, ?_⟩
          simpa using hpos
        -- it is not among the taken prefix
        have hjdrop : ((steps.get ⟨j, hj⟩, scoreStep q (steps.get ⟨j, hj⟩)), j) ∈
            filtAnn.drop maxSteps := by
          rcases (List.mem_append.mp (by
            rw [List.take_append_drop]
            exact hjfilt : ((steps.get ⟨j, hj⟩, scoreStep q (steps.get ⟨j, hj⟩)), j) ∈
              filtAnn.take maxSteps ++ filtAnn.drop maxSteps)) with hin | hin
          · exfalso
            refine hnot ((steps.get ⟨j, hj⟩), j) ?_ rfl
            have : (((steps.get ⟨j, hj⟩, scoreStep q (steps.get ⟨j, hj⟩)), j) :
                (StepRecord × Nat) × Nat) ∈ takeAnn := by
              rw [htakeAnn]
              exact hin
            exact List.mem_map.mpr ⟨_, this, rfl⟩
          · exact hin
        -- the stable order across the take/drop split bounds the score
        have hsplit := (List.pairwise_append.mp
          (by rw [List.take_append_drop]; exact hstableFilt :
            (filtAnn.take maxSteps ++ filtAnn.drop maxSteps).Pairwise
              (fun a b => b.1.2 < a.1.2 ∨ (a.1.2 = b.1.2 ∧ a.2 < b.2)))).2.2
        have hrel := hsplit a (by rw [← htakeAnn]; exact ha) _ hjdrop
        have hsa := hscoreSorted a (hmemTake a ha)
        dsimp only
        rw [← hsa]
        rcases hrel with hlt | ⟨heq, _⟩
        · exact le_of_lt hlt
        · exact le_of_eq heq.symm

theorem getRelevantSteps_scoring_witness :
    (getRelevantSteps "how to use the filter" [⟨1, "open the filter menu"⟩, ⟨2, "unrelated"⟩] 4).length ≤ 4 :=
  (getRelevantSteps_scoring "how to use the filter"
    [⟨1, "open the filter menu"⟩, ⟨2, "unrelated"⟩] 4 (by decide) (by decide)).1

theorem formatSteps_range_partition_witness :
    formatStepsInAnswer "Step 7." =
      "Step 7.<br><br>Relevant steps: <a href=\"#step-7\">Step 7</a>" :=
  (formatSteps_range_partition "See Step 52 and Step 53 and Step 55."
    (by decide)).2.2.2.2.2.2.2.1

theorem strMk_data (l : List Char) : (String.mk l).data = l := rfl

theorem leadsWith_iff (pat cs : List Char) :
    leadsWith pat cs = true ↔ ∃ v, cs = pat ++ v := by
  induction pat generalizing cs with
  | nil =>
    simp [leadsWith]
  | cons p ps ih =>
    cases cs with
    | nil =>
      simp [leadsWith]
    | cons c tail =>
      simp only [leadsWith, Bool.and_eq_true, beq_iff_eq, ih, List.cons_append]
      constructor
      · rintro ⟨rfl, v, rfl⟩
        exact ⟨v, rfl⟩
      · rintro ⟨v, hv⟩
        injection hv with h1 h2
        exact ⟨h1.symm, v, h2⟩

theorem hasSub_iff (cs pat : List Char) :
    hasSub cs pat = true ↔ ∃ u v, cs = u ++ pat ++ v := by
  induction cs with
  | nil =>
    simp only [hasSub, List.isEmpty_iff]
    constructor
    · rintro rfl
      exact ⟨[], [], rfl⟩
    · rintro ⟨u, v, huv⟩
      rcases List.append_eq_nil.mp huv.symm with ⟨hup, _⟩
      rcases List.append_eq_nil.mp hup with ⟨_, hp⟩
      exact hp
  | cons c tail ih =>
    simp only [hasSub, Bool.or_eq_true, ih, leadsWith_iff]
    constructor
    · rintro (⟨v, hv⟩ | ⟨u, v, hv⟩)
      · exact ⟨[], v, by simpa using hv⟩
      · exact ⟨c :: u, v, by simp [hv]⟩
    · rintro ⟨u, v, huv⟩
      cases u with
      | nil =>
        exact Or.inl ⟨v, by simpa using huv⟩
      | cons u0 us =>
        injection huv with _ h2
        exact Or.inr ⟨us, v, h2⟩

theorem adjPairs_append_sub (m b : List Char) (x y : Char)
    (h : (x, y) ∈ adjPairs m) : (x, y) ∈ adjPairs (m ++ b) := by
  induction m with
  | nil => cases h
  | cons c tail ih =>
    cases tail with
    | nil => cases h
    | cons d r =>
      rcases List.mem_cons.mp h with heq | hmem
      · show (x, y) ∈ (c, d) :: adjPairs (d :: (r ++ b))
        exact List.mem_cons.mpr (Or.inl heq)
      · show (x, y) ∈ (c, d) :: adjPairs (d :: (r ++ b))
        exact List.mem_cons.mpr (Or.inr (ih hmem))

theorem adjPairs_append_sup (a m : List Char) (x y : Char)
    (h : (x, y) ∈ adjPairs m) : (x, y) ∈ adjPairs (a ++ m) := by
  induction a with
  | nil => exact h
  | cons c as ih =>
    have ih' := ih
    show (x, y) ∈ adjPairs (c :: (as ++ m))
    cases has : as ++ m with
    | nil =>
      rw [has] at ih'
      cases ih'
    | cons d r =>
      rw [has] at ih'
      exact List.mem_cons.mpr (Or.inr ih')

theorem pairs_of_hasSub (cs pat : List Char) (x y : Char)
    (hsub : hasSub cs pat = true) (hmem : (x, y) ∈ adjPairs pat) :
    (x, y) ∈ adjPairs cs := by
  obtain ⟨u, v, rfl⟩ := (hasSub_iff cs pat).mp hsub
  exact adjPairs_append_sub (u ++ pat) v x y (adjPairs_append_sup u pat x y hmem)

theorem adjPairs_fst_mem (cs : List Char) (x y : Char)
    (h : (x, y) ∈ adjPairs cs) : x ∈ cs := by
  induction cs with
  | nil => cases h
  | cons c tail ih =>
    cases tail with
    | nil => cases h
    | cons d r =>
      rcases List.mem_cons.mp h with heq | hmem
      · have h1 : x = c := congrArg Prod.fst heq
        exact h1 ▸ List.mem_cons_self _ _
      · exact List.mem_cons_of_mem c (ih hmem)

theorem adjPairs_append_cases (a b : List Char) (x y : Char)
    (h : (x, y) ∈ adjPairs (a ++ b)) :
    (x, y) ∈ adjPairs a ∨ (x, y) ∈ adjPairs b ∨ b.head? = some y := by
  induction a with
  | nil => exact Or.inr (Or.inl h)
  | cons c as ih =>
    rw [show (c :: as) ++ b = c :: (as ++ b) from rfl] at h
    cases has : as ++ b with
    | nil =>
      rw [has] at h
      cases h
    | cons d r =>
      rw [has] at h
      rcases List.mem_cons.mp h with heq | hmem
      · have hy : y = d := congrArg Prod.snd heq
        have hx : x = c := congrArg Prod.fst heq
        cases as with
        | nil =>
          have hb : b = d :: r := by simpa using has
          refine Or.inr (Or.inr ?_)
          rw [hb, hy]
          rfl
        | cons a1 atail =>
          injection has with h1 _
          refine Or.inl ?_
          show (x, y) ∈ (c, a1) :: adjPairs (a1 :: atail)
          refine List.mem_cons.mpr (Or.inl ?_)
          rw [hx, hy, h1]
      · have hmem' : (x, y) ∈ adjPairs (as ++ b) := by
          rw [has]
          exact hmem
        rcases ih hmem' with h1 | h2 | h3
        · refine Or.inl ?_
          cases as with
          | nil => cases h1
          | cons a1 atail =>
            show (x, y) ∈ (c, a1) :: adjPairs (a1 :: atail)
            exact List.mem_cons.mpr (Or.inr h1)
        · exact Or.inr (Or.inl h2)
        · exact Or.inr (Or.inr h3)

theorem hasSub_append_cases (a b pat : List Char)
    (h : hasSub (a ++ b) pat = true) :
    hasSub a pat = true ∨ hasSub b pat = true ∨
      ∃ k, 0 < k ∧ k < pat.length ∧ leadsWith (pat.drop k) b = true := by
  obtain ⟨u, v, huv⟩ := (hasSub_iff _ _).mp h
  by_cases hc1 : u.length + pat.length ≤ a.length
  · -- the occurrence lies entirely inside a
    left
    have hlen : u.length + pat.length = (u ++ pat).length := (List.length_append u pat).symm
    have htake : a.take (u.length + pat.length) = u ++ pat := by
      have h1 := congrArg (List.take (u.length + pat.length)) huv
      rw [List.take_append_of_le_length hc1] at h1
      rw [h1, hlen, List.take_left]
    refine (hasSub_iff _ _).mpr ⟨u, a.drop (u.length + pat.length), ?_⟩
    rw [← htake]
    exact (List.take_append_drop _ a).symm
  · by_cases hc2 : a.length ≤ u.length
    · -- the occurrence lies entirely inside b
      right
      left
      have hdrop := congrArg (List.drop a.length) huv
      rw [List.drop_left,
        List.drop_append_of_le_length (by rw [List.length_append]; omega),
        List.drop_append_of_le_length hc2] at hdrop
      exact (hasSub_iff _ _).mpr ⟨u.drop a.length, v, hdrop⟩
    · -- the occurrence straddles the boundary
      right
      right
      push_neg at hc1 hc2
      refine ⟨a.length - u.length, by omega, by omega, ?_⟩
      have hdrop := congrArg (List.drop a.length) huv
      rw [List.drop_left,
        List.drop_append_of_le_length (by rw [List.length_append]; omega),
        List.drop_append_eq_append_drop, List.drop_eq_nil_of_le (by omega),
        List.nil_append] at hdrop
      exact (leadsWith_iff _ _).mpr ⟨v, hdrop⟩

theorem cleanDE_append (a b : List Char) (ha : cleanDE a) (hb : cleanDE b) :
    cleanDE (a ++ b) := by
  refine ⟨?_, ?_⟩
  · intro h
    rcases adjPairs_append_cases a b 'd' 'e' h with h1 | h2 | h3
    · exact ha.1 h1
    · exact hb.1 h2
    · exact hb.2 h3
  · cases a with
    | nil => exact hb.2
    | cons c r =>
      show (c :: (r ++ b)).head? ≠ some 'e'
      have := ha.2
      simpa using this

theorem lowerL_append (x y : List Char) : lowerL (x ++ y) = lowerL x ++ lowerL y :=
  List.map_append ..

theorem digitChar10_bound (m : Nat) (hm : m < 10) :
    48 ≤ (digitChar10 m).toNat ∧ (digitChar10 m).toNat ≤ 57 := by
  interval_cases m <;> decide

theorem natCharsAux_digits (fuel : Nat) : ∀ n, ∀ c ∈ natCharsAux fuel n,
    48 ≤ c.toNat ∧ c.toNat ≤ 57 := by
  induction fuel with
  | zero =>
    intro n c hc
    cases hc
  | succ fuel ih =>
    intro n c hc
    simp only [natCharsAux] at hc
    split at hc
    · next h =>
      rw [List.mem_singleton] at hc
      subst hc
      exact digitChar10_bound n h
    · next h =>
      rcases List.mem_append.mp hc with hc1 | hc2
      · exact ih (n / 10) c hc1
      · rw [List.mem_singleton] at hc2
        subst hc2
        exact digitChar10_bound (n % 10) (Nat.mod_lt _ (by omega))

theorem toLower_of_le_57 (c : Char) (h : c.toNat ≤ 57) : c.toLower = c := by
  unfold Char.toLower
  dsimp only
  rw [if_neg (by omega)]

theorem mapToLower_natChars (n : Nat) :
    List.map Char.toLower (natChars n) = natChars n := by
  have hall : ∀ c ∈ natChars n, c.toLower = c :=
    fun c hc => toLower_of_le_57 c (natCharsAux_digits (n + 1) n c hc).2
  calc List.map Char.toLower (natChars n) = List.map id (natChars n) :=
        List.map_congr_left hall
    _ = natChars n := List.map_id _

theorem cleanDE_digits (n : Nat) : cleanDE (natChars n) := by
  constructor
  · intro h
    have hd : 'd' ∈ natChars n := adjPairs_fst_mem _ _ _ h
    have hb := (natCharsAux_digits (n + 1) n 'd' hd).2
    have hd100 : ('d' : Char).toNat = 100 := rfl
    omega
  · intro h
    have he : 'e' ∈ natChars n :=
      List.mem_of_mem_head? (Option.mem_def.mpr h)
    have hb := (natCharsAux_digits (n + 1) n 'e' he).2
    have he101 : ('e' : Char).toNat = 101 := rfl
    omega

theorem cleanDE_renderRange (p : Nat × Nat) :
    cleanDE (lowerL (renderRange p).data) := by
  unfold renderRange
  split
  · simp only [strData_append, strMk_data]
    unfold lowerL
    simp only [List.map_append, mapToLower_natChars]
    exact cleanDE_append _ _ (cleanDE_append _ _ (cleanDE_append _ _
      (cleanDE_append _ _ (by decide) (cleanDE_digits _)) (by decide))
      (cleanDE_digits _)) (by decide)
  · simp only [strData_append, strMk_data]
    unfold lowerL
    simp only [List.map_append, mapToLower_natChars]
    exact cleanDE_append _ _ (cleanDE_append _ _ (cleanDE_append _ _
      (cleanDE_append _ _ (cleanDE_append _ _ (cleanDE_append _ _
        (by decide) (cleanDE_digits _)) (by decide)) (cleanDE_digits _))
      (by decide)) (cleanDE_digits _)) (by decide)

theorem cleanDE_commaJoin (ls : List String)
    (h : ∀ u ∈ ls, cleanDE (lowerL u.data)) :
    cleanDE (lowerL (commaJoin ls).data) := by
  induction ls with
  | nil => exact (by decide)
  | cons l ls ih =>
    cases ls with
    | nil => exact h l (by simp)
    | cons l2 rest =>
      show cleanDE (lowerL (l ++ ", " ++ commaJoin (l2 :: rest)).data)
      rw [strData_append, strData_append, lowerL_append, lowerL_append]
      refine cleanDE_append _ _ (cleanDE_append _ _ ?_ (by decide)) ?_
      · exact h l (by simp)
      · exact ih (fun u hu => h u (List.mem_cons_of_mem l hu))

theorem getLastD_mem (l : List α) : ∀ d : α, l ≠ [] → l.getLastD d ∈ l := by
  induction l with
  | nil =>
    intro d h
    exact absurd rfl h
  | cons x xs ih =>
    intro d _
    rw [List.getLastD_cons]
    cases xs with
    | nil => simp
    | cons a r => exact List.mem_cons_of_mem x (ih x (by simp))

theorem cleanDE_joinLinks (ls : List String)
    (h : ∀ u ∈ ls, cleanDE (lowerL u.data)) :
    cleanDE (lowerL (joinLinks ls).data) := by
  cases ls with
  | nil => exact (by decide)
  | cons l1 rest =>
    cases rest with
    | nil => exact h l1 (by simp)
    | cons l2 rest2 =>
      cases rest2 with
      | nil =>
        show cleanDE (lowerL (l1 ++ " and " ++ l2).data)
        rw [strData_append, strData_append, lowerL_append, lowerL_append]
        exact cleanDE_append _ _ (cleanDE_append _ _ (h l1 (by simp)) (by decide))
          (h l2 (by simp))
      | cons l3 rest3 =>
        show cleanDE (lowerL (commaJoin (l1 :: l2 :: l3 :: rest3).dropLast ++
          ", and " ++ (l1 :: l2 :: l3 :: rest3).getLastD "").data)
        rw [strData_append, strData_append, lowerL_append, lowerL_append]
        refine cleanDE_append _ _ (cleanDE_append _ _ ?_ (by decide)) ?_
        · exact cleanDE_commaJoin _ (fun u hu => h u (List.dropLast_sublist _ |>.subset hu))
        · exact h _ (getLastD_mem _ "" (by simp))

theorem cleanDE_linksStr (a : String) : cleanDE (lowerL (linksStrOf a).data) := by
  unfold linksStrOf
  refine cleanDE_joinLinks _ ?_
  intro u hu
  rcases List.mem_map.mp hu with ⟨p, _, rfl⟩
  exact cleanDE_renderRange p

theorem hasSub_false_of_clean (cs pat : List Char)
    (hp : ('d', 'e') ∈ adjPairs pat) (hc : ('d', 'e') ∉ adjPairs cs) :
    hasSub cs pat = false := by
  by_contra h
  rw [Bool.not_eq_false] at h
  exact hc (pairs_of_hasSub cs pat _ _ h hp)

theorem hasSub_append_false (A B pat : List Char)
    (hA : hasSub A pat = false)
    (hB : ('d', 'e') ∉ adjPairs B)
    (hp : ('d', 'e') ∈ adjPairs pat)
    (hBhead : B.head? = some '<')
    (hlt : ∀ k, k < pat.length → 0 < k → (pat.drop k).head? ≠ some '<') :
    hasSub (A ++ B) pat = false := by
  by_contra h
  rw [Bool.not_eq_false] at h
  rcases hasSub_append_cases A B pat h with h1 | h2 | ⟨k, hk0, hklen, hlead⟩
  · rw [hA] at h1
    cases h1
  · exact hB (pairs_of_hasSub B pat _ _ h2 hp)
  · obtain ⟨v, hv⟩ := (leadsWith_iff _ _).mp hlead
    cases hd : pat.drop k with
    | nil =>
      have hlen := congrArg List.length hd
      rw [List.length_drop] at hlen
      simp at hlen
      omega
    | cons pc pr =>
      rw [hd] at hv
      rw [hv] at hBhead
      have hpc : pc = '<' := by simpa using hBhead
      exact hlt k hklen hk0 (by rw [hd, hpc]; rfl)

/-- Under the override branch, the rewritten answer can never match the
override pattern again: its lower-cased text contains no `de` bigram. -/
theorem overridePat_mail (a : String) :
    overridePat ("Mail merge is covered in: " ++ linksStrOf a) = false := by
  have hc : ('d', 'e') ∉
      adjPairs (lowerL ("Mail merge is covered in: " ++ linksStrOf a).data) := by
    rw [strData_append, lowerL_append]
    exact (cleanDE_append _ _ (by decide) (cleanDE_linksStr a)).1
  unfold overridePat
  rw [hasSub_false_of_clean _ _ (by decide) hc,
    hasSub_false_of_clean _ _ (by decide) hc]
  rfl

/-- Appending the `Relevant steps` section cannot create an occurrence of the
override pattern: the appended text has no `de` bigram, starts with `<`, and
no proper suffix of the pattern starts with `<`, so no new or straddling
match is possible. -/
theorem overridePat_append (s a : String) (h : overridePat s = false) :
    overridePat (s ++ "<br><br>Relevant steps: " ++ linksStrOf a) = false := by
  have hdata : (s ++ "<br><br>Relevant steps: " ++ linksStrOf a).data =
      s.data ++ ("<br><br>Relevant steps: ".data ++ (linksStrOf a).data) := by
    rw [strData_append, strData_append, List.append_assoc]
  unfold overridePat at h ⊢
  rcases Bool.or_eq_false_iff.mp h with ⟨h1, h2⟩
  rw [hdata, lowerL_append]
  have hBclean : ('d', 'e') ∉
      adjPairs (lowerL ("<br><br>Relevant steps: ".data ++ (linksStrOf a).data)) := by
    rw [lowerL_append]
    exact (cleanDE_append _ _ (by decide) (cleanDE_linksStr a)).1
  have hBhead :
      (lowerL ("<br><br>Relevant steps: ".data ++ (linksStrOf a).data)).head? =
        some '<' := by
    rw [lowerL_append]
    rfl
  rw [hasSub_append_false _ _ _ h1 hBclean (by decide) hBhead (by decide),
    hasSub_append_false _ _ _ h2 hBclean (by decide) hBhead (by decide)]
  rfl

theorem formatSteps_eq_of_nil (x : String) (hx : scanSteps x.data = []) :
    formatStepsInAnswer x = x := by
  simp [formatStepsInAnswer, hx]

theorem formatSteps_eq_append (x : String) (hx : scanSteps x.data ≠ [])
    (ho : overridePat x = false) :
    formatStepsInAnswer x = x ++ "<br><br>Relevant steps: " ++ linksStrOf x := by
  simp [formatStepsInAnswer, hx, ho]

/-- Claim C9: a second application of the formatter never corrupts the output
of the first: the twice-formatted string extends the once-formatted string by
a (possibly empty) suffix, so every anchor produced by the first application
survives verbatim, unexpanded, in the second output. -/
theorem formatSteps_second_pass (s : String) :
    ∃ t : String, formatStepsInAnswer (formatStepsInAnswer s) =
      formatStepsInAnswer s ++ t := by
  by_cases h0 : scanSteps s.data = []
  · have hs : formatStepsInAnswer s = s := formatSteps_eq_of_nil s h0
    refine ⟨"", ?_⟩
    rw [String.append_empty, hs]
    exact hs
  · have hyform : formatStepsInAnswer s =
        if overridePat s then "Mail merge is covered in: " ++ linksStrOf s
        else s ++ "<br><br>Relevant steps: " ++ linksStrOf s := by
      unfold formatStepsInAnswer
      rw [if_neg h0]
    have hov : overridePat (formatStepsInAnswer s) = false := by
      rw [hyform]
      by_cases hovs : overridePat s
      · rw [if_pos hovs]
        exact overridePat_mail s
      · rw [if_neg hovs]
        exact overridePat_append s s (by simpa using hovs)
    by_cases h1 : scanSteps (formatStepsInAnswer s).data = []
    · refine ⟨"", ?_⟩
      rw [String.append_empty]
      exact formatSteps_eq_of_nil _ h1
    · refine ⟨"<br><br>Relevant steps: " ++ linksStrOf (formatStepsInAnswer s), ?_⟩
      rw [formatSteps_eq_append _ h1 hov, String.append_assoc]

theorem getRelevantTranscript_spec_witness :
    getRelevantTranscript "hello world transcript" "world" 5 =
        String.mk ((("hello world transcript" : String).data.drop
            (matchOffset "hello world transcript" "world" - 100)).take
            (min ("hello world transcript" : String).data.length
              (matchOffset "hello world transcript" "world" + 5) -
            (matchOffset "hello world transcript" "world" - 100))) ++
          (if min ("hello world transcript" : String).data.length
              (matchOffset "hello world transcript" "world" + 5) <
              ("hello world transcript" : String).data.length
            then "..." else "") :=
  (getRelevantTranscript_spec "hello world transcript" "world" 5).2.1 (by decide)

end Chatbot
